import Mathlib

/-!
Verification of `queued_search/management/commands/process_search_queue.py`.

The Python module drains a message queue, aggregates `update`/`delete`
actions per object identifier, and flushes batched calls to a search
backend.  We embed the module shallowly:

* Python strings are Lean `String`s; `str.split(sep)` for a one-character
  separator is `pySplit`, and `sep.join(l)` is `pyJoin`.
* The two Python `set()`s in `Command.__init__` are embedded as duplicate-free
  `List String`s (`Actions`), with `set.add` / `set.remove` embedded as
  `setAdd` / `List.erase`; the list order stands for the (arbitrary but
  fixed) iteration order of the Python set.
* The Django model registry, the Haystack index registry and the ORM
  instance lookup are external collaborators; they are embedded as an
  abstract environment `Env` with `getIndex : String → Option ι`
  (composing `get_model_class` and `get_index`, both of whose failures make
  the group be skipped) and `getInstance : String → Option ε`
  (`get_instance`, returning `none` on `ObjectDoesNotExist` /
  `MultipleObjectsReturned`).
* Calls issued to the search backend (`current_index.backend.update`,
  `current_index.remove_object`) are collected in a trace of `Call`s; each
  trace element also records the `object_path` of the group that issued it.
* A Python statement that raises an uncaught exception (the tuple unpack
  `action, obj_identifier = message.split(':')` with more than two parts)
  is embedded as `Except.error`.  Logging is dropped.
-/

/-- Python `str.split(sep)` for a single-character separator, on the
character list: `"".split(sep) == ['']`, and every occurrence of `sep`
starts a new (possibly empty) segment. -/
def pySplitList (sep : Char) : List Char → List (List Char)
  | [] => [[]]
  | c :: cs =>
    if c = sep then [] :: pySplitList sep cs
    else
      match pySplitList sep cs with
      | [] => [[c]]
      | s :: ss => (c :: s) :: ss

/-- Python `message.split(sep)` on Lean strings. -/
def pySplit (s : String) (sep : Char) : List String :=
  (pySplitList sep s.data).map String.mk

/-- Python `sep.join(l)` for a single-character separator, on character
lists. -/
def pyJoinList (sep : Char) : List (List Char) → List Char
  | [] => []
  | [x] => x
  | x :: y :: xs => x ++ sep :: pyJoinList sep (y :: xs)

/-- Python `sep.join(l)` on Lean strings. -/
def pyJoin (sep : Char) (l : List String) : String :=
  String.mk (pyJoinList sep (l.map String.data))

/-- Python `c in s` for a single character `c` (substring containment of a
one-character string is character membership). -/
def pyContainsChar (s : String) (c : Char) : Bool :=
  s.data.contains c

/-- Python `set.add`: adds the element unless it is already a member.  On a
duplicate-free list this is exactly set insertion; new elements go to the
end of the iteration order. -/
def setAdd (l : List String) (x : String) : List String :=
  if x ∈ l then l else l ++ [x]

/-- The state built in `Command.__init__`:
`self.actions = {'update': set(), 'delete': set()}`. -/
structure Actions where
  update : List String
  delete : List String
deriving Repr, DecidableEq

/-- The empty `actions` dictionary created by `Command.__init__`. -/
def Actions.init : Actions := ⟨[], []⟩

/-- The recognized-action dispatch of `process_message` (lines 73-94): on
`'update'` remove the identifier from the delete set and add it to the
update set; on `'delete'` remove it from the update set and add it to the
delete set; any other action is logged and ignored. -/
def applyAction (action obj_identifier : String) (st : Actions) : Actions :=
  if action = "update" then
    { update := setAdd st.update obj_identifier
      delete := st.delete.erase obj_identifier }
  else if action = "delete" then
    { update := st.update.erase obj_identifier
      delete := setAdd st.delete obj_identifier }
  else
    st

/-- `Command.process_message` (lines 59-94).  A message without `':'` is
logged and skipped.  Otherwise the code executes
`action, obj_identifier = message.split(':')`: Python `split` with no
limit splits at every colon, so the unpacking succeeds only when the
message has exactly one colon; with two or more colons the statement
raises `ValueError`, embedded as `Except.error ()`. -/
def process_message (message : String) (st : Actions) : Except Unit Actions :=
  if pyContainsChar message ':' = false then
    .ok st
  else
    match pySplit message ':' with
    | [action, obj_identifier] => .ok (applyAction action obj_identifier st)
    | _ => .error ()

/-- The drain loop of `handle_noargs` (lines 46-52): feed every queued
message to `process_message` in order; an uncaught exception aborts the
loop. -/
def processQueue (msgs : List String) (st : Actions) : Except Unit Actions :=
  match msgs with
  | [] => .ok st
  | m :: ms =>
    match process_message m st with
    | .ok st' => processQueue ms st'
    | .error e => .error e

/-- `Command.split_obj_identifier` (lines 96-111): split on `'.'`; with
fewer than two parts return `(None, None)` (embedded as `none`), otherwise
the primary key is the last part and the object path is the other parts
re-joined with `'.'`. -/
def split_obj_identifier (obj_identifier : String) : Option (String × String) :=
  let bits := pySplit obj_identifier '.'
  if bits.length < 2 then none
  else some (pyJoin '.' bits.dropLast, bits.getLastD "")

/-- The external collaborators of the flush phase.  `getIndex` composes
`get_model_class` (line 113) with `get_index` (line 139): both failure
modes (`get_model` returning `None`, Haystack raising `NotRegistered`)
make the caller skip the group, so they collapse to `none`.
`getInstance path pk` is `get_instance` (line 126) on the model class
loaded from `path`: `none` embeds `ObjectDoesNotExist` and
`MultipleObjectsReturned`. -/
structure Env (ι ε : Type) where
  getIndex : String → Option ι
  getInstance : String → String → Option ε

/-- One call issued to the search backend, labelled with the
`object_path` of the group that issued it. -/
inductive Call (ι ε : Type) where
  /-- `current_index.backend.update(current_index, instances)` (line 191). -/
  | update (idx : ι) (path : String) (instances : List ε)
  /-- `current_index.remove_object(obj_identifier)` (line 231). -/
  | remove (idx : ι) (path : String) (obj_identifier : String)
deriving Repr, DecidableEq

/-- Appending a value under a key in an insertion-ordered dictionary:
`if path not in d: d[path] = []` followed by `d[path].append(v)`. -/
def groupInsert (groups : List (String × List String)) (path v : String) :
    List (String × List String) :=
  match groups with
  | [] => [(path, [v])]
  | (p, l) :: rest =>
    if p = path then (p, l ++ [v]) :: rest
    else (p, l) :: groupInsert rest path v

/-- One iteration of the grouping loop of `handle_updates` (lines
159-169): split the identifier; skip it if malformed; otherwise append
the primary key under its object path. -/
def updGroupStep (groups : List (String × List String)) (id : String) :
    List (String × List String) :=
  match split_obj_identifier id with
  | none => groups
  | some (path, pk) => groupInsert groups path pk

/-- The grouping loop of `handle_updates` (lines 159-169). -/
def collectUpdates (ids : List String) : List (String × List String) :=
  ids.foldl updGroupStep []

/-- One iteration of the grouping loop of `handle_deletes` (lines
204-214): identical to the update grouping except that the whole
identifier, not the primary key, is appended under the object path. -/
def delGroupStep (groups : List (String × List String)) (id : String) :
    List (String × List String) :=
  match split_obj_identifier id with
  | none => groups
  | some (path, _) => groupInsert groups path id

/-- The grouping loop of `handle_deletes` (lines 204-214). -/
def collectDeletes (ids : List String) : List (String × List String) :=
  ids.foldl delGroupStep []

/-- The dispatch loop of `handle_updates` (lines 172-192): for each
grouped `(object_path, pks)` entry, resolve the index (the `previous_path`
cache never hits because dictionary keys are distinct); if there is none,
skip the group; otherwise resolve each primary key to an instance, drop
the ones that failed, and issue one batched backend update call. -/
def updStep {ι ε : Type} (env : Env ι ε) (g : String × List String)
    (calls : List (Call ι ε)) : List (Call ι ε) :=
  match env.getIndex g.1 with
  | none => calls
  | some idx => .update idx g.1 (g.2.filterMap (env.getInstance g.1)) :: calls

def handle_updates {ι ε : Type} (env : Env ι ε) (ids : List String) :
    List (Call ι ε) :=
  (collectUpdates ids).foldr (updStep env) []

/-- The dispatch loop of `handle_deletes` (lines 217-234): for each
grouped `(object_path, obj_identifiers)` entry, resolve the index; if
there is none, skip the group; otherwise issue one `remove_object` call
per identifier, keyed by the identifier itself.  No instance is ever
fetched. -/
def delStep {ι ε : Type} (env : Env ι ε) (g : String × List String)
    (calls : List (Call ι ε)) : List (Call ι ε) :=
  match env.getIndex g.1 with
  | none => calls
  | some idx => g.2.map (fun id => Call.remove idx g.1 id) ++ calls

def handle_deletes {ι ε : Type} (env : Env ι ε) (ids : List String) :
    List (Call ι ε) :=
  (collectDeletes ids).foldr (delStep env) []

/-- The command object: its only state relevant here is the `actions`
dictionary set up by `Command.__init__` (lines 26-32). -/
structure Command where
  actions : Actions

/-- `Command.__init__` (lines 26-32): the actions dictionary starts with
two empty sets. -/
def Command.init : Command := ⟨Actions.init⟩

/-- `Command.handle_noargs` (lines 34-57) on a queue already holding the
listed messages: consume the whole queue through `process_message`, then
run `handle_updates` followed by `handle_deletes`.  An uncaught exception
from `process_message` propagates (only `QueueException` is caught). -/
def handle_noargs {ι ε : Type} (env : Env ι ε) (c : Command)
    (queue : List String) : Except Unit (List (Call ι ε)) :=
  match processQueue queue c.actions with
  | .error e => .error e
  | .ok st => .ok (handle_updates env st.update ++ handle_deletes env st.delete)

/-- One invocation of the management command: Django constructs a fresh
`Command` object and then calls `handle_noargs` on it. -/
def runInvocation {ι ε : Type} (env : Env ι ε) (queue : List String) :
    Except Unit (List (Call ι ε)) :=
  handle_noargs env Command.init queue

/-- A sequence of invocations of the management command, one per queue
content. -/
def runInvocations {ι ε : Type} (env : Env ι ε) (queues : List (List String)) :
    List (Except Unit (List (Call ι ε))) :=
  queues.map (runInvocation env)

/-- The object path a backend call was issued for. -/
def pathOf {ι ε : Type} : Call ι ε → String
  | .update _ p _ => p
  | .remove _ p _ => p

/-- The backend calls issued on behalf of the group of one object path. -/
def callsFor {ι ε : Type} (p : String) (calls : List (Call ι ε)) :
    List (Call ι ε) :=
  calls.filter (fun c => pathOf c == p)

/-- The primary keys of the members of the update set that decode to the
given object path, in set-iteration order. -/
def pksFor (p : String) (ids : List String) : List String :=
  ids.filterMap (fun id =>
    match split_obj_identifier id with
    | some (q, pk) => if q = p then some pk else none
    | none => none)

/-- The members of the delete set that decode to the given object path,
in set-iteration order. -/
def delIdsFor (p : String) (ids : List String) : List String :=
  ids.filterMap (fun id =>
    match split_obj_identifier id with
    | some (q, _) => if q = p then some id else none
    | none => none)

/-- One step of the scan for the last recognized action concerning a given
identifier: a recognized `(action, identifier)` pair for that identifier
overwrites the accumulator. -/
def lastRecStep (id : String) (acc : Option String) (p : String × String) :
    Option String :=
  if p.2 = id ∧ (p.1 = "update" ∨ p.1 = "delete") then some p.1 else acc

/-- The last recognized action seen for an identifier while scanning a
message stream left to right. -/
def lastRecognized (pairs : List (String × String)) (id : String) :
    Option String :=
  pairs.foldl (lastRecStep id) none

/-- Feeding a stream of already-parsed `(action, identifier)` pairs to the
aggregator branch of `process_message`. -/
def runPairs (pairs : List (String × String)) (st : Actions) : Actions :=
  pairs.foldl (fun st p => applyAction p.1 p.2 st) st

/-- The representation invariant of the two Python sets: both lists are
duplicate-free and no identifier is in both. -/
def GoodActions (st : Actions) : Prop :=
  st.update.Nodup ∧ st.delete.Nodup ∧ ∀ x, x ∈ st.update → x ∉ st.delete

/-- Dictionary lookup in the insertion-ordered grouping dictionary. -/
def findGroup (groups : List (String × List String)) (q : String) :
    Option (List String) :=
  match groups with
  | [] => none
  | (p, l) :: rest => if p = q then some l else findGroup rest q

/-- Merging the values a suffix of the iteration contributes to one key
into an optional existing entry for that key. -/
def combineOpt (o : Option (List String)) (l : List String) :
    Option (List String) :=
  match l with
  | [] => o
  | _ => some (o.getD [] ++ l)

/-! ### Lemmas about the Python split/join embedding -/

theorem pySplitList_ne_nil (sep : Char) (l : List Char) :
    pySplitList sep l ≠ [] := by
  induction l with
  | nil => simp [pySplitList]
  | cons c cs ih =>
    simp only [pySplitList]
    split
    · simp
    · cases h : pySplitList sep cs <;> simp

theorem length_pySplitList (sep : Char) (l : List Char) :
    (pySplitList sep l).length = l.count sep + 1 := by
  induction l with
  | nil => simp [pySplitList]
  | cons c cs ih =>
    simp only [pySplitList, List.count_cons]
    by_cases h : c = sep
    · simp [h, ih]
    · have hbeq : (c == sep) = false := by simpa using h
      simp only [if_neg h, hbeq, if_false]
      cases hs : pySplitList sep cs with
      | nil => exact absurd hs (pySplitList_ne_nil sep cs)
      | cons s ss => rw [hs] at ih; simpa using ih

theorem not_mem_of_mem_pySplitList (sep : Char) (l : List Char) :
    ∀ s ∈ pySplitList sep l, sep ∉ s := by
  induction l with
  | nil => intro s hs; simp [pySplitList] at hs; simp [hs]
  | cons c cs ih =>
    intro s hs
    simp only [pySplitList] at hs
    by_cases h : c = sep
    · rw [if_pos h] at hs
      rcases List.mem_cons.mp hs with hs | hs
      · simp [hs]
      · exact ih s hs
    · rw [if_neg h] at hs
      cases hcs : pySplitList sep cs with
      | nil => exact absurd hcs (pySplitList_ne_nil sep cs)
      | cons t ts =>
        rw [hcs] at hs
        rcases List.mem_cons.mp hs with hs | hs
        · subst hs
          intro hmem
          rcases List.mem_cons.mp hmem with h' | h'
          · exact h h'.symm
          · exact ih t (hcs ▸ List.mem_cons_self t ts) h'
        · exact ih s (hcs ▸ List.mem_cons_of_mem t hs)

theorem pyJoinList_cons_cons (sep : Char) (c : Char) (s : List Char)
    (ss : List (List Char)) :
    pyJoinList sep ((c :: s) :: ss) = c :: pyJoinList sep (s :: ss) := by
  cases ss <;> rfl

theorem pyJoinList_pySplitList (sep : Char) (l : List Char) :
    pyJoinList sep (pySplitList sep l) = l := by
  induction l with
  | nil => rfl
  | cons c cs ih =>
    simp only [pySplitList]
    by_cases h : c = sep
    · rw [if_pos h]
      cases hcs : pySplitList sep cs with
      | nil => exact absurd hcs (pySplitList_ne_nil sep cs)
      | cons s ss =>
        rw [hcs] at ih
        show pyJoinList sep ([] :: s :: ss) = c :: cs
        simp only [pyJoinList, List.nil_append]
        rw [ih, h]
    · rw [if_neg h]
      cases hcs : pySplitList sep cs with
      | nil => exact absurd hcs (pySplitList_ne_nil sep cs)
      | cons s ss =>
        rw [hcs] at ih
        rw [pyJoinList_cons_cons, ih]

theorem pyJoinList_append_singleton (sep : Char) (xs : List (List Char))
    (x : List Char) (h : xs ≠ []) :
    pyJoinList sep (xs ++ [x]) = pyJoinList sep xs ++ sep :: x := by
  induction xs with
  | nil => exact absurd rfl h
  | cons a as ih =>
    cases as with
    | nil => rfl
    | cons b bs =>
      have : pyJoinList sep ((a :: b :: bs) ++ [x]) =
          a ++ sep :: pyJoinList sep ((b :: bs) ++ [x]) := rfl
      rw [this, ih (by simp)]
      simp [pyJoinList]

theorem string_ext {a b : String} (h : a.data = b.data) : a = b :=
  congrArg String.mk h

theorem contains_eq_false_iff (c : Char) (l : List Char) :
    l.contains c = false ↔ c ∉ l := by
  simp [List.elem_iff]

theorem getLastD_map_mk (l : List (List Char)) :
    (l.map String.mk).getLastD "" = String.mk (l.getLastD []) := by
  rw [List.getLastD_eq_getLast?, List.getLastD_eq_getLast?, List.getLast?_map]
  cases l.getLast? <;> rfl

theorem map_data_map_mk (l : List (List Char)) :
    (l.map String.mk).map String.data = l := by
  rw [List.map_map]
  exact List.map_id l

theorem length_pySplit (s : String) (sep : Char) :
    (pySplit s sep).length = s.data.count sep + 1 := by
  rw [pySplit, List.length_map, length_pySplitList]

theorem pyContainsChar_iff_two_le (s : String) (sep : Char) :
    pyContainsChar s sep = true ↔ 2 ≤ (pySplit s sep).length := by
  rw [pyContainsChar, List.elem_iff, length_pySplit]
  constructor
  · intro h
    have := List.count_pos_iff.mpr h
    omega
  · intro h
    have : 0 < s.data.count sep := by omega
    exact List.count_pos_iff.mp this

/-- `split_obj_identifier` fails exactly on identifiers with fewer than two
dot-separated segments, i.e. exactly on identifiers with no dot at all. -/
theorem split_obj_identifier_eq_none_iff (s : String) :
    split_obj_identifier s = none ↔ (pySplit s '.').length < 2 := by
  rw [split_obj_identifier]
  split
  · simp only [true_iff]
    assumption
  · simp only [reduceCtorEq, false_iff]
    omega

/-- Full functional characterisation of a successful
`split_obj_identifier`: the object path and primary key are the two pieces
computed by the code, they re-join to the original identifier, and the
primary key is the (dot-free) final segment. -/
theorem split_obj_identifier_spec (s t k : String)
    (h : split_obj_identifier s = some (t, k)) :
    2 ≤ (pySplit s '.').length ∧
    t = pyJoin '.' (pySplit s '.').dropLast ∧
    k = (pySplit s '.').getLastD "" ∧
    t ++ "." ++ k = s ∧
    pyContainsChar k '.' = false := by
  rw [split_obj_identifier] at h
  split at h
  · exact absurd h (by simp)
  · rename_i hlen
    have hlen2 : 2 ≤ (pySplit s '.').length := by omega
    obtain ⟨ht, hk⟩ : t = pyJoin '.' (pySplit s '.').dropLast ∧
        k = (pySplit s '.').getLastD "" := by
      have := Option.some.inj h
      exact ⟨(congrArg Prod.fst this).symm, (congrArg Prod.snd this).symm⟩
    refine ⟨hlen2, ht, hk, ?_, ?_⟩
    · -- re-joining path and key gives back the identifier
      apply string_ext
      have hparts_ne : pySplitList '.' s.data ≠ [] := pySplitList_ne_nil _ _
      have hlen2' : 2 ≤ (pySplitList '.' s.data).length := by
        rw [pySplit, List.length_map] at hlen2; exact hlen2
      have hdrop_ne : (pySplitList '.' s.data).dropLast ≠ [] := by
        intro hc
        have := List.length_dropLast (pySplitList '.' s.data)
        rw [hc] at this
        simp at this
        omega
      have hdata_t : t.data = pyJoinList '.' (pySplitList '.' s.data).dropLast := by
        rw [ht, pyJoin, pySplit, ← List.map_dropLast, map_data_map_mk]
      have hdata_k : k.data = (pySplitList '.' s.data).getLastD [] := by
        rw [hk, pySplit, getLastD_map_mk]
      rw [String.data_append, String.data_append, hdata_t, hdata_k]
      have hdot : (".".data : List Char) = ['.'] := rfl
      rw [hdot, List.append_assoc, List.singleton_append]
      rw [← pyJoinList_append_singleton '.' _ _ hdrop_ne]
      have : (pySplitList '.' s.data).dropLast ++
          [(pySplitList '.' s.data).getLastD []] = pySplitList '.' s.data := by
        have hgl : (pySplitList '.' s.data).getLastD [] =
            (pySplitList '.' s.data).getLast hparts_ne := by
          rw [List.getLastD_eq_getLast?, List.getLast?_eq_getLast _ hparts_ne]
          rfl
        rw [hgl]
        exact List.dropLast_append_getLast hparts_ne
      rw [this, pyJoinList_pySplitList]
    · -- the primary key contains no dot
      have hparts_ne : pySplitList '.' s.data ≠ [] := pySplitList_ne_nil _ _
      have hdata_k : k.data = (pySplitList '.' s.data).getLastD [] := by
        rw [hk, pySplit, getLastD_map_mk]
      rw [pyContainsChar, hdata_k]
      rw [contains_eq_false_iff]
      have hgl : (pySplitList '.' s.data).getLastD [] =
          (pySplitList '.' s.data).getLast hparts_ne := by
        rw [List.getLastD_eq_getLast?, List.getLast?_eq_getLast _ hparts_ne]
        rfl
      rw [hgl]
      exact not_mem_of_mem_pySplitList '.' s.data _ (List.getLast_mem hparts_ne)

/-! ### Lemmas about the aggregator state -/

theorem goodActions_init : GoodActions Actions.init := by
  refine ⟨List.nodup_nil, List.nodup_nil, ?_⟩
  intro x hx
  simp [Actions.init] at hx

theorem mem_setAdd (l : List String) (x y : String) :
    y ∈ setAdd l x ↔ y ∈ l ∨ y = x := by
  rw [setAdd]
  split
  · rename_i h
    constructor
    · exact Or.inl
    · rintro (hy | rfl)
      · exact hy
      · exact h
  · simp [List.mem_append]

theorem nodup_setAdd (l : List String) (x : String) (h : l.Nodup) :
    (setAdd l x).Nodup := by
  rw [setAdd]
  split
  · exact h
  · rename_i hx
    simp [List.nodup_append, h, hx]

theorem applyAction_good (a i : String) (st : Actions) (h : GoodActions st) :
    GoodActions (applyAction a i st) := by
  obtain ⟨hu, hd, hdisj⟩ := h
  rw [applyAction]
  split
  · refine ⟨nodup_setAdd _ _ hu, hd.erase i, ?_⟩
    intro x hx
    rw [mem_setAdd] at hx
    rw [hd.mem_erase_iff]
    rcases hx with hx | rfl
    · rintro ⟨-, hmem⟩
      exact hdisj x hx hmem
    · rintro ⟨hne, -⟩
      exact hne rfl
  · split
    · refine ⟨hu.erase i, nodup_setAdd _ _ hd, ?_⟩
      intro x hx
      rw [hu.mem_erase_iff] at hx
      rw [mem_setAdd]
      rintro (hmem | rfl)
      · exact hdisj x hx.2 hmem
      · exact hx.1 rfl
    · exact ⟨hu, hd, hdisj⟩

theorem process_message_good (m : String) (st st' : Actions)
    (h : process_message m st = .ok st') (hg : GoodActions st) :
    GoodActions st' := by
  rw [process_message] at h
  split at h
  · cases h; exact hg
  · split at h
    · cases h; exact applyAction_good _ _ _ hg
    · cases h

theorem processQueue_good (msgs : List String) :
    ∀ st st', processQueue msgs st = .ok st' → GoodActions st → GoodActions st' := by
  induction msgs with
  | nil =>
    intro st st' h hg
    rw [processQueue] at h
    cases h
    exact hg
  | cons m ms ih =>
    intro st st' h hg
    rw [processQueue] at h
    cases hm : process_message m st with
    | ok st₁ =>
      rw [hm] at h
      exact ih st₁ st' h (process_message_good m st st₁ hm hg)
    | error e => rw [hm] at h; cases h

/-! ### Last-write-wins characterisation of the aggregator -/

theorem mem_applyAction_update (a i id : String) (st : Actions)
    (hst : GoodActions st) :
    (id ∈ (applyAction a i st).update ↔
      (if a = "update" then (id ∈ st.update ∨ id = i)
       else if a = "delete" then (id ≠ i ∧ id ∈ st.update)
       else id ∈ st.update)) := by
  rw [applyAction]
  split
  · exact mem_setAdd _ _ _
  · split
    · exact hst.1.mem_erase_iff
    · exact Iff.rfl

theorem mem_applyAction_delete (a i id : String) (st : Actions)
    (hst : GoodActions st) :
    (id ∈ (applyAction a i st).delete ↔
      (if a = "update" then (id ≠ i ∧ id ∈ st.delete)
       else if a = "delete" then (id ∈ st.delete ∨ id = i)
       else id ∈ st.delete)) := by
  rw [applyAction]
  split
  · exact hst.2.1.mem_erase_iff
  · split
    · exact mem_setAdd _ _ _
    · exact Iff.rfl

theorem foldl_lastRecStep_acc (id : String) (pairs : List (String × String)) :
    ∀ acc, pairs.foldl (lastRecStep id) acc =
      match pairs.foldl (lastRecStep id) none with
      | none => acc
      | some a => some a := by
  induction pairs with
  | nil => intro acc; rfl
  | cons p rest ih =>
    intro acc
    rw [List.foldl_cons, List.foldl_cons, ih (lastRecStep id acc p),
      ih (lastRecStep id none p)]
    cases hres : rest.foldl (lastRecStep id) none with
    | none =>
      simp only [lastRecStep]
      split <;> rfl
    | some a => rfl

theorem runPairs_good (pairs : List (String × String)) :
    ∀ st, GoodActions st → GoodActions (runPairs pairs st) := by
  induction pairs with
  | nil => intro st hst; exact hst
  | cons p rest ih =>
    intro st hst
    exact ih (applyAction p.1 p.2 st) (applyAction_good p.1 p.2 st hst)

theorem runPairs_mem (pairs : List (String × String)) :
    ∀ st, GoodActions st → ∀ id,
      (id ∈ (runPairs pairs st).update ↔
        (match lastRecognized pairs id with
         | some a => a = "update"
         | none => id ∈ st.update)) ∧
      (id ∈ (runPairs pairs st).delete ↔
        (match lastRecognized pairs id with
         | some a => a = "delete"
         | none => id ∈ st.delete)) := by
  induction pairs with
  | nil => intro st hst id; exact ⟨Iff.rfl, Iff.rfl⟩
  | cons p rest ih =>
    intro st hst id
    have hrun : runPairs (p :: rest) st = runPairs rest (applyAction p.1 p.2 st) := rfl
    have hlast : lastRecognized (p :: rest) id =
        (match lastRecognized rest id with
         | none => lastRecStep id none p
         | some a => some a) := by
      rw [lastRecognized, List.foldl_cons, foldl_lastRecStep_acc]
      rfl
    have hst' := applyAction_good p.1 p.2 st hst
    obtain ⟨ihu, ihd⟩ := ih (applyAction p.1 p.2 st) hst' id
    rw [hrun, hlast]
    cases hres : lastRecognized rest id with
    | some a =>
      rw [hres] at ihu ihd
      exact ⟨ihu, ihd⟩
    | none =>
      rw [hres] at ihu ihd
      constructor
      · rw [ihu, mem_applyAction_update p.1 p.2 id st hst]
        rw [lastRecStep]
        by_cases hrec : p.2 = id ∧ (p.1 = "update" ∨ p.1 = "delete")
        · rw [if_pos hrec]
          show _ ↔ p.1 = "update"
          obtain ⟨h2, hact⟩ := hrec
          rcases hact with hu | hd
          · rw [if_pos hu, hu]
            simp [h2]
          · rw [if_neg (show ¬p.1 = "update" by rw [hd]; decide), if_pos hd, hd]
            constructor
            · rintro ⟨hne, -⟩
              exact absurd h2.symm hne
            · intro hc
              exact absurd hc (by decide)
        · rw [if_neg hrec]
          show _ ↔ id ∈ st.update
          by_cases hu : p.1 = "update"
          · have h2 : ¬p.2 = id := fun h => hrec ⟨h, Or.inl hu⟩
            rw [if_pos hu]
            constructor
            · rintro (h | h)
              · exact h
              · exact absurd h.symm h2
            · exact Or.inl
          · by_cases hd : p.1 = "delete"
            · have h2 : ¬p.2 = id := fun h => hrec ⟨h, Or.inr hd⟩
              rw [if_neg hu, if_pos hd]
              constructor
              · rintro ⟨-, h⟩
                exact h
              · intro h
                exact ⟨fun hc => h2 hc.symm, h⟩
            · rw [if_neg hu, if_neg hd]
      · rw [ihd, mem_applyAction_delete p.1 p.2 id st hst]
        rw [lastRecStep]
        by_cases hrec : p.2 = id ∧ (p.1 = "update" ∨ p.1 = "delete")
        · rw [if_pos hrec]
          show _ ↔ p.1 = "delete"
          obtain ⟨h2, hact⟩ := hrec
          rcases hact with hu | hd
          · rw [if_pos hu, hu]
            constructor
            · rintro ⟨hne, -⟩
              exact absurd h2.symm hne
            · intro hc
              exact absurd hc (by decide)
          · rw [if_neg (show ¬p.1 = "update" by rw [hd]; decide), if_pos hd, hd]
            simp [h2]
        · rw [if_neg hrec]
          show _ ↔ id ∈ st.delete
          by_cases hu : p.1 = "update"
          · have h2 : ¬p.2 = id := fun h => hrec ⟨h, Or.inl hu⟩
            rw [if_pos hu]
            constructor
            · rintro ⟨-, h⟩
              exact h
            · intro h
              exact ⟨fun hc => h2 hc.symm, h⟩
          · by_cases hd : p.1 = "delete"
            · have h2 : ¬p.2 = id := fun h => hrec ⟨h, Or.inr hd⟩
              rw [if_neg hu, if_pos hd]
              constructor
              · rintro (h | h)
                · exact h
                · exact absurd h.symm h2
              · exact Or.inl
            · rw [if_neg hu, if_neg hd]

/-! ### Lemmas about the grouping dictionaries -/

theorem findGroup_groupInsert (g : List (String × List String)) (p v q : String) :
    findGroup (groupInsert g p v) q =
      if p = q then some ((findGroup g p).getD [] ++ [v]) else findGroup g q := by
  induction g with
  | nil =>
    rw [groupInsert]
    by_cases h : p = q <;> simp [findGroup, h]
  | cons a rest ih =>
    obtain ⟨ap, al⟩ := a
    rw [groupInsert]
    by_cases hap : ap = p
    · rw [if_pos hap]
      subst hap
      by_cases hq : ap = q
      · subst hq
        simp [findGroup]
      · simp [findGroup, hq]
    · rw [if_neg hap]
      by_cases hq : p = q
      · subst hq
        simp [findGroup, hap, ih]
      · by_cases hapq : ap = q
        · subst hapq
          simp [findGroup, hq]
        · simp [findGroup, hapq, hq, ih]

theorem combineOpt_cons (o : Option (List String)) (v : String) (l : List String) :
    combineOpt o (v :: l) = combineOpt (some (o.getD [] ++ [v])) l := by
  cases l with
  | nil => rfl
  | cons x xs =>
    show some (o.getD [] ++ v :: x :: xs) = some ((o.getD [] ++ [v]) ++ x :: xs)
    simp

theorem findGroup_foldl_updGroupStep (ids : List String) :
    ∀ g p, findGroup (ids.foldl updGroupStep g) p =
      combineOpt (findGroup g p) (pksFor p ids) := by
  induction ids with
  | nil => intro g p; rfl
  | cons id ids ih =>
    intro g p
    rw [List.foldl_cons]
    cases hsplit : split_obj_identifier id with
    | none =>
      have h1 : updGroupStep g id = g := by rw [updGroupStep, hsplit]
      have h2 : pksFor p (id :: ids) = pksFor p ids := by
        simp [pksFor, List.filterMap_cons, hsplit]
      rw [h1, ih, h2]
    | some pr =>
      obtain ⟨path, pk⟩ := pr
      have h1 : updGroupStep g id = groupInsert g path pk := by
        rw [updGroupStep, hsplit]
      rw [h1, ih, findGroup_groupInsert]
      by_cases hp : path = p
      · have h2 : pksFor p (id :: ids) = pk :: pksFor p ids := by
          simp [pksFor, List.filterMap_cons, hsplit, hp]
        rw [if_pos hp, h2, combineOpt_cons, hp]
      · have h2 : pksFor p (id :: ids) = pksFor p ids := by
          simp [pksFor, List.filterMap_cons, hsplit, hp]
        rw [if_neg hp, h2]

theorem findGroup_foldl_delGroupStep (ids : List String) :
    ∀ g p, findGroup (ids.foldl delGroupStep g) p =
      combineOpt (findGroup g p) (delIdsFor p ids) := by
  induction ids with
  | nil => intro g p; rfl
  | cons id ids ih =>
    intro g p
    rw [List.foldl_cons]
    cases hsplit : split_obj_identifier id with
    | none =>
      have h1 : delGroupStep g id = g := by rw [delGroupStep, hsplit]
      have h2 : delIdsFor p (id :: ids) = delIdsFor p ids := by
        simp [delIdsFor, List.filterMap_cons, hsplit]
      rw [h1, ih, h2]
    | some pr =>
      obtain ⟨path, pk⟩ := pr
      have h1 : delGroupStep g id = groupInsert g path id := by
        rw [delGroupStep, hsplit]
      rw [h1, ih, findGroup_groupInsert]
      by_cases hp : path = p
      · have h2 : delIdsFor p (id :: ids) = id :: delIdsFor p ids := by
          simp [delIdsFor, List.filterMap_cons, hsplit, hp]
        rw [if_pos hp, h2, combineOpt_cons, hp]
      · have h2 : delIdsFor p (id :: ids) = delIdsFor p ids := by
          simp [delIdsFor, List.filterMap_cons, hsplit, hp]
        rw [if_neg hp, h2]

theorem findGroup_collectUpdates (ids : List String) (p : String) :
    findGroup (collectUpdates ids) p = combineOpt none (pksFor p ids) := by
  rw [collectUpdates, findGroup_foldl_updGroupStep]
  rfl

theorem findGroup_collectDeletes (ids : List String) (p : String) :
    findGroup (collectDeletes ids) p = combineOpt none (delIdsFor p ids) := by
  rw [collectDeletes, findGroup_foldl_delGroupStep]
  rfl

theorem map_fst_groupInsert (g : List (String × List String)) (p v : String) :
    (groupInsert g p v).map Prod.fst =
      if p ∈ g.map Prod.fst then g.map Prod.fst else g.map Prod.fst ++ [p] := by
  induction g with
  | nil => simp [groupInsert]
  | cons a rest ih =>
    obtain ⟨ap, al⟩ := a
    rw [groupInsert]
    by_cases hap : ap = p
    · subst hap
      simp
    · rw [if_neg hap]
      have hpap : ¬p = ap := fun h => hap h.symm
      by_cases hmem : p ∈ rest.map Prod.fst
      · simp [hmem, hpap, ih]
      · simp [hmem, hpap, ih]

theorem nodup_keys_groupInsert (g : List (String × List String)) (p v : String)
    (h : (g.map Prod.fst).Nodup) : ((groupInsert g p v).map Prod.fst).Nodup := by
  rw [map_fst_groupInsert]
  split
  · exact h
  · rename_i hp
    simp [List.nodup_append, h, hp]

theorem nodup_keys_foldl_updGroupStep (ids : List String) :
    ∀ g : List (String × List String), (g.map Prod.fst).Nodup →
      ((ids.foldl updGroupStep g).map Prod.fst).Nodup := by
  induction ids with
  | nil => intro g h; exact h
  | cons id ids ih =>
    intro g h
    rw [List.foldl_cons]
    apply ih
    rw [updGroupStep]
    cases hsplit : split_obj_identifier id with
    | none => exact h
    | some pr => exact nodup_keys_groupInsert g pr.1 pr.2 h

theorem nodup_keys_foldl_delGroupStep (ids : List String) :
    ∀ g : List (String × List String), (g.map Prod.fst).Nodup →
      ((ids.foldl delGroupStep g).map Prod.fst).Nodup := by
  induction ids with
  | nil => intro g h; exact h
  | cons id ids ih =>
    intro g h
    rw [List.foldl_cons]
    apply ih
    rw [delGroupStep]
    cases hsplit : split_obj_identifier id with
    | none => exact h
    | some pr => exact nodup_keys_groupInsert g pr.1 id h

theorem nodup_keys_collectUpdates (ids : List String) :
    ((collectUpdates ids).map Prod.fst).Nodup :=
  nodup_keys_foldl_updGroupStep ids [] (by simp)

theorem nodup_keys_collectDeletes (ids : List String) :
    ((collectDeletes ids).map Prod.fst).Nodup :=
  nodup_keys_foldl_delGroupStep ids [] (by simp)

/-! ### Lemmas about the dispatch loops -/

theorem callsFor_nil {ι ε : Type} (p : String) :
    callsFor p ([] : List (Call ι ε)) = [] := rfl

theorem callsFor_foldr_updStep_of_not_mem {ι ε : Type} (env : Env ι ε)
    (g : List (String × List String)) (p : String)
    (h : p ∉ g.map Prod.fst) :
    callsFor p (g.foldr (updStep env) []) = [] := by
  induction g with
  | nil => rfl
  | cons a rest ih =>
    obtain ⟨q, l⟩ := a
    have hq : ¬q = p := by
      intro hc
      exact h (by simp [hc])
    have hrest : p ∉ rest.map Prod.fst := fun hc => h (by simp [hc])
    rw [List.foldr_cons, updStep]
    cases hidx : env.getIndex q with
    | none => exact ih hrest
    | some idx =>
      rw [callsFor, List.filter_cons]
      have : (pathOf (Call.update idx q (l.filterMap (env.getInstance q))) == p)
          = false := by
        simp [pathOf, hq]
      rw [this]
      exact ih hrest

theorem callsFor_foldr_delStep_of_not_mem {ι ε : Type} (env : Env ι ε)
    (g : List (String × List String)) (p : String)
    (h : p ∉ g.map Prod.fst) :
    callsFor p (g.foldr (delStep env) []) = [] := by
  induction g with
  | nil => rfl
  | cons a rest ih =>
    obtain ⟨q, l⟩ := a
    have hq : ¬q = p := by
      intro hc
      exact h (by simp [hc])
    have hrest : p ∉ rest.map Prod.fst := fun hc => h (by simp [hc])
    rw [List.foldr_cons, delStep]
    cases hidx : env.getIndex q with
    | none => exact ih hrest
    | some idx =>
      rw [callsFor, List.filter_append]
      have hfilter : (l.map (fun id => (Call.remove idx q id : Call ι ε))).filter
          (fun c => pathOf c == p) = [] := by
        rw [List.filter_map]
        have hcomp : (fun c => pathOf c == p) ∘
            (fun id => (Call.remove idx q id : Call ι ε)) = fun _ => false := by
          funext id
          simp [Function.comp, pathOf, hq]
        rw [hcomp, List.filter_false, List.map_nil]
      rw [hfilter, List.nil_append]
      exact ih hrest

theorem callsFor_foldr_updStep {ι ε : Type} (env : Env ι ε) :
    ∀ g : List (String × List String), ∀ p : String,
      (g.map Prod.fst).Nodup →
      callsFor p (g.foldr (updStep env) []) =
        (match findGroup g p with
         | none => []
         | some pks =>
           match env.getIndex p with
           | none => []
           | some idx => [Call.update idx p (pks.filterMap (env.getInstance p))]) := by
  intro g
  induction g with
  | nil => intro p hnd; rfl
  | cons a rest ih =>
    intro p hnd
    obtain ⟨q, l⟩ := a
    rw [List.map_cons, List.nodup_cons] at hnd
    obtain ⟨hq_notin, hnd'⟩ := hnd
    rw [List.foldr_cons, updStep]
    by_cases hqp : q = p
    · subst hqp
      have hfg : findGroup ((q, l) :: rest) q = some l := by simp [findGroup]
      rw [hfg]
      cases hidx : env.getIndex q with
      | none => exact callsFor_foldr_updStep_of_not_mem env rest q hq_notin
      | some idx =>
        have hrest := callsFor_foldr_updStep_of_not_mem env rest q hq_notin
        rw [callsFor] at hrest ⊢
        rw [List.filter_cons]
        have htrue : (pathOf (Call.update idx q (l.filterMap (env.getInstance q)))
            == q) = true := by simp [pathOf]
        rw [htrue, if_pos rfl, hrest]
    · have hfg : findGroup ((q, l) :: rest) p = findGroup rest p := by
        simp [findGroup, hqp]
      rw [hfg]
      cases hidx : env.getIndex q with
      | none => exact ih p hnd'
      | some idx =>
        have hih := ih p hnd'
        rw [callsFor] at hih ⊢
        rw [List.filter_cons]
        have hfalse : (pathOf (Call.update idx q (l.filterMap (env.getInstance q)))
            == p) = false := by simp [pathOf, hqp]
        rw [hfalse]
        simpa using hih

theorem callsFor_foldr_delStep {ι ε : Type} (env : Env ι ε) :
    ∀ g : List (String × List String), ∀ p : String,
      (g.map Prod.fst).Nodup →
      callsFor p (g.foldr (delStep env) []) =
        (match findGroup g p with
         | none => []
         | some gids =>
           match env.getIndex p with
           | none => []
           | some idx => gids.map (fun id => Call.remove idx p id)) := by
  intro g
  induction g with
  | nil => intro p hnd; rfl
  | cons a rest ih =>
    intro p hnd
    obtain ⟨q, l⟩ := a
    rw [List.map_cons, List.nodup_cons] at hnd
    obtain ⟨hq_notin, hnd'⟩ := hnd
    rw [List.foldr_cons, delStep]
    by_cases hqp : q = p
    · subst hqp
      have hfg : findGroup ((q, l) :: rest) q = some l := by simp [findGroup]
      rw [hfg]
      cases hidx : env.getIndex q with
      | none => exact callsFor_foldr_delStep_of_not_mem env rest q hq_notin
      | some idx =>
        have hrest := callsFor_foldr_delStep_of_not_mem env rest q hq_notin
        rw [callsFor] at hrest ⊢
        rw [List.filter_append, hrest, List.append_nil]
        rw [List.filter_map]
        have hcomp : (fun c => pathOf c == q) ∘
            (fun id => (Call.remove idx q id : Call ι ε)) = fun _ => true := by
          funext id
          simp [Function.comp, pathOf]
        rw [hcomp]
        simp
    · have hfg : findGroup ((q, l) :: rest) p = findGroup rest p := by
        simp [findGroup, hqp]
      rw [hfg]
      cases hidx : env.getIndex q with
      | none => exact ih p hnd'
      | some idx =>
        have hih := ih p hnd'
        rw [callsFor] at hih ⊢
        rw [List.filter_append]
        have hfilter : (l.map (fun id => (Call.remove idx q id : Call ι ε))).filter
            (fun c => pathOf c == p) = [] := by
          rw [List.filter_map]
          have hcomp : (fun c => pathOf c == p) ∘
              (fun id => (Call.remove idx q id : Call ι ε)) = fun _ => false := by
            funext id
            simp [Function.comp, pathOf, hqp]
          rw [hcomp, List.filter_false, List.map_nil]
        rw [hfilter, List.nil_append]
        exact hih

theorem callsFor_handle_updates {ι ε : Type} (env : Env ι ε) (ids : List String)
    (p : String) :
    callsFor p (handle_updates env ids) =
      (match combineOpt none (pksFor p ids) with
       | none => []
       | some pks =>
         match env.getIndex p with
         | none => []
         | some idx => [Call.update idx p (pks.filterMap (env.getInstance p))]) := by
  rw [handle_updates, callsFor_foldr_updStep env _ p (nodup_keys_collectUpdates ids),
    findGroup_collectUpdates]

theorem callsFor_handle_deletes {ι ε : Type} (env : Env ι ε) (ids : List String)
    (p : String) :
    callsFor p (handle_deletes env ids) =
      (match combineOpt none (delIdsFor p ids) with
       | none => []
       | some gids =>
         match env.getIndex p with
         | none => []
         | some idx => gids.map (fun id => Call.remove idx p id)) := by
  rw [handle_deletes, callsFor_foldr_delStep env _ p (nodup_keys_collectDeletes ids),
    findGroup_collectDeletes]

theorem handle_updates_batch {ι ε : Type} (env : Env ι ε) (ids : List String)
    (p : String) (idx : ι) (hreg : env.getIndex p = some idx)
    (hpend : pksFor p ids ≠ []) :
    callsFor p (handle_updates env ids) =
      [Call.update idx p ((pksFor p ids).filterMap (env.getInstance p))] := by
  rw [callsFor_handle_updates]
  cases hpk : pksFor p ids with
  | nil => exact absurd hpk hpend
  | cons a l => simp [combineOpt, hreg]

theorem handle_updates_skip {ι ε : Type} (env : Env ι ε) (ids : List String)
    (p : String) (hreg : env.getIndex p = none) :
    callsFor p (handle_updates env ids) = [] := by
  rw [callsFor_handle_updates]
  cases combineOpt none (pksFor p ids) with
  | none => rfl
  | some pks => simp [hreg]

theorem handle_deletes_skip {ι ε : Type} (env : Env ι ε) (ids : List String)
    (p : String) (hreg : env.getIndex p = none) :
    callsFor p (handle_deletes env ids) = [] := by
  rw [callsFor_handle_deletes]
  cases combineOpt none (delIdsFor p ids) with
  | none => rfl
  | some gids => simp [hreg]

theorem handle_deletes_mem {ι ε : Type} (env : Env ι ε) (ids : List String)
    (id p k : String) (idx : ι) (hmem : id ∈ ids)
    (hsplit : split_obj_identifier id = some (p, k))
    (hreg : env.getIndex p = some idx) :
    Call.remove idx p id ∈ handle_deletes env ids := by
  have hid : id ∈ delIdsFor p ids := by
    rw [delIdsFor, List.mem_filterMap]
    exact ⟨id, hmem, by simp [hsplit]⟩
  apply List.mem_of_mem_filter (p := fun c => pathOf c == p)
  show Call.remove idx p id ∈ callsFor p (handle_deletes env ids)
  rw [callsFor_handle_deletes]
  cases hdl : delIdsFor p ids with
  | nil => rw [hdl] at hid; cases hid
  | cons a l =>
    rw [hdl] at hid
    simp only [combineOpt, hreg]
    exact List.mem_map_of_mem _ hid

theorem handle_deletes_no_fetch {ι ε : Type} (gi : String → Option ι)
    (f f' : String → String → Option ε) (ids : List String) :
    handle_deletes (Env.mk gi f) ids = handle_deletes (Env.mk gi f') ids := rfl

theorem process_message_ok_of_le_two (m : String) (st : Actions)
    (h : (pySplit m ':').length ≤ 2) :
    (process_message m st).isOk = true := by
  rw [process_message]
  split
  · rfl
  · rename_i hcol
    have h2 : 2 ≤ (pySplit m ':').length := by
      rw [← pyContainsChar_iff_two_le]
      cases hc : pyContainsChar m ':'
      · exact absurd hc hcol
      · rfl
    rcases hsp : pySplit m ':' with _ | ⟨a, _ | ⟨b, _ | ⟨c, rest⟩⟩⟩
    · rw [hsp] at h2; simp at h2
    · rw [hsp] at h2; simp at h2
    · rfl
    · exact absurd h (by rw [hsp]; simp only [List.length_cons]; omega)

theorem processQueue_ok (msgs : List String) :
    ∀ st, (∀ m ∈ msgs, (pySplit m ':').length ≤ 2) →
      (processQueue msgs st).isOk = true := by
  induction msgs with
  | nil => intro st h; rfl
  | cons m ms ih =>
    intro st h
    rw [processQueue]
    cases hpm : process_message m st with
    | ok st' => exact ih st' (fun m' hm' => h m' (List.mem_cons_of_mem m hm'))
    | error e =>
      have := process_message_ok_of_le_two m st (h m (List.mem_cons_self m ms))
      rw [hpm] at this
      cases this

/-! ### The claims -/

/-- **C1**: for every sequence of messages fed to the Action Aggregator
(starting, as the code does, from the empty state built in
`Command.__init__`), the set of pending updates and the set of pending
deletes are disjoint.  Every prefix of a message sequence is itself a
message sequence, so quantifying over all sequences settles the invariant
at every prefix. -/
theorem updates_deletes_disjoint (msgs : List String) (st : Actions)
    (h : processQueue msgs Actions.init = .ok st) :
    st.update ∩ st.delete = [] := by
  have hg := processQueue_good msgs Actions.init st h goodActions_init
  rw [List.eq_nil_iff_forall_not_mem]
  intro x hx
  rw [List.mem_inter_iff] at hx
  exact hg.2.2 x hx.1 hx.2

/-- Witness for C1 at the concrete run
`["update:a.1", "delete:a.1"]`, which ends with
`updates = ∅`, `deletes = {"a.1"}`. -/
theorem updates_deletes_disjoint_witness :
    (Actions.mk [] ["a.1"]).update ∩ (Actions.mk [] ["a.1"]).delete = [] :=
  updates_deletes_disjoint ["update:a.1", "delete:a.1"]
    (Actions.mk [] ["a.1"]) rfl

/-- **C2**: applying an ordered stream of `(action, identifier)` pairs to
the aggregator realizes last-write-wins: an identifier is in the update
set iff the last recognized action for it was `update`, in the delete set
iff it was `delete`, and both sets are duplicate-free. -/
theorem last_write_wins (pairs : List (String × String)) (id : String) :
    (id ∈ (runPairs pairs Actions.init).update ↔
      lastRecognized pairs id = some "update") ∧
    (id ∈ (runPairs pairs Actions.init).delete ↔
      lastRecognized pairs id = some "delete") ∧
    (runPairs pairs Actions.init).update.Nodup ∧
    (runPairs pairs Actions.init).delete.Nodup := by
  obtain ⟨hu, hd⟩ := runPairs_mem pairs Actions.init goodActions_init id
  have hg := runPairs_good pairs Actions.init goodActions_init
  refine ⟨?_, ?_, hg.1, hg.2.1⟩
  · rw [hu]
    cases hres : lastRecognized pairs id with
    | none => simp [Actions.init]
    | some a => simp
  · rw [hd]
    cases hres : lastRecognized pairs id with
    | none => simp [Actions.init]
    | some a => simp

/-- **C3** (counterexample): the claim says the parser splits on the first
`':'` only, so `"update:a:b"` would parse as the recognized action
`update` on identifier `"a:b"` and succeed.  The code instead executes
`message.split(':')` with no limit; the unpack of the three resulting
parts raises `ValueError` (embedded as `Except.error ()`). -/
theorem parse_first_colon_counterexample :
    process_message "update:a:b" Actions.init = .error () ∧
    (Except.error () : Except Unit Actions) ≠
      .ok (applyAction "update" "a:b" Actions.init) :=
  ⟨rfl, fun h => Except.noConfusion h⟩

/-- **C3** (amended): for a message with exactly one `':'` the action is
the part before it and the identifier the part after it; a message with
no `':'` is rejected (logged and skipped, the state unchanged); a message
with two or more `':'` makes the tuple unpack raise.  Having a colon is
exactly having at least two split parts. -/
theorem parse_exactly_one_colon (msg a i : String) (st : Actions) :
    (pySplit msg ':' = [a, i] → process_message msg st = .ok (applyAction a i st)) ∧
    (pyContainsChar msg ':' = false → process_message msg st = .ok st) ∧
    (3 ≤ (pySplit msg ':').length → process_message msg st = .error ()) ∧
    (pyContainsChar msg ':' = true ↔ 2 ≤ (pySplit msg ':').length) := by
  refine ⟨?_, ?_, ?_, pyContainsChar_iff_two_le msg ':'⟩
  · intro hsp
    have hcol : ¬pyContainsChar msg ':' = false := by
      have h2 : 2 ≤ (pySplit msg ':').length := by rw [hsp]; simp
      have := (pyContainsChar_iff_two_le msg ':').mpr h2
      simp [this]
    rw [process_message, if_neg hcol, hsp]
  · intro hcol
    rw [process_message, if_pos hcol]
  · intro hlen
    have hcol : ¬pyContainsChar msg ':' = false := by
      have := (pyContainsChar_iff_two_le msg ':').mpr (by omega)
      simp [this]
    rw [process_message, if_neg hcol]
    rcases hsp : pySplit msg ':' with _ | ⟨x, _ | ⟨y, _ | ⟨z, rest⟩⟩⟩
    · rfl
    · rfl
    · rw [hsp] at hlen; simp at hlen
    · rfl

/-- Witness for C3 (amended) at the messages `"update:a.1"` (one colon),
`"nocolon"` (no colon) and `"a:b:c"` (two colons). -/
theorem parse_exactly_one_colon_witness :
    process_message "update:a.1" Actions.init =
      .ok (applyAction "update" "a.1" Actions.init) ∧
    process_message "nocolon" Actions.init = .ok Actions.init ∧
    process_message "a:b:c" Actions.init = .error () ∧
    (pyContainsChar "x:y" ':' = true ↔ 2 ≤ (pySplit "x:y" ':').length) :=
  ⟨(parse_exactly_one_colon "update:a.1" "update" "a.1" Actions.init).1 (by decide),
   (parse_exactly_one_colon "nocolon" "" "" Actions.init).2.1 (by decide),
   (parse_exactly_one_colon "a:b:c" "" "" Actions.init).2.2.1 (by decide),
   (parse_exactly_one_colon "x:y" "" "" Actions.init).2.2.2⟩

/-- **C4** (counterexample): the claim says one drain-and-flush cycle
never surfaces a fatal error, for every queue content.  A queue holding
the single message `"update:a:b"` (two colons) makes the unpack in
`process_message` raise out of `handle_noargs`: only `QueueException` is
caught there. -/
theorem drain_cycle_fatal_error_counterexample :
    runInvocation (Env.mk (fun _ => some 0) (fun _ _ => some 0) : Env Nat Nat)
      ["update:a:b"] = .error () := rfl

/-- **C4** (amended): one drain-and-flush cycle surfaces no error for any
queue content in which every message has at most one `':'` (any mix of
well-formed, colon-free and unrecognized-action messages); errors there
are handled locally by logging and skipping.  The collaborators
(registry, repository, backend) are modelled per their contracts, with
their failure modes folded into `Env`. -/
theorem drain_cycle_no_fatal_error {ι ε : Type} (env : Env ι ε)
    (queue : List String)
    (h : ∀ m ∈ queue, (pySplit m ':').length ≤ 2) :
    (runInvocation env queue).isOk = true := by
  rw [runInvocation, handle_noargs]
  cases hq : processQueue queue Command.init.actions with
  | ok st => rfl
  | error e =>
    have := processQueue_ok queue Command.init.actions h
    rw [hq] at this
    cases this

/-- Witness for C4 (amended) on a queue mixing a well-formed update, a
colon-free message, an unrecognized action and a well-formed delete. -/
theorem drain_cycle_no_fatal_error_witness :
    (runInvocation (Env.mk (fun _ => some 0) (fun _ _ => some 0) : Env Nat Nat)
      ["update:a.1", "junkmessage", "upsert:b.2", "delete:a.1"]).isOk = true :=
  drain_cycle_no_fatal_error _ _ (by decide)

/-- **C5**: `split_obj_identifier` decodes `"blog.post.42"` to entity type
`"blog.post"` and primary key `"42"`; it fails (returning neither a type
nor a key) exactly on identifiers with fewer than two dot-separated
segments; and on success the key is the (dot-free) final segment, the
type is the remaining segments re-joined with dots, and the two re-join
to the original identifier. -/
theorem identifier_codec_decode :
    split_obj_identifier "blog.post.42" = some ("blog.post", "42") ∧
    (∀ s : String, split_obj_identifier s = none ↔ (pySplit s '.').length < 2) ∧
    (∀ s t k : String, split_obj_identifier s = some (t, k) →
      2 ≤ (pySplit s '.').length ∧
      t = pyJoin '.' (pySplit s '.').dropLast ∧
      k = (pySplit s '.').getLastD "" ∧
      t ++ "." ++ k = s ∧
      pyContainsChar k '.' = false) :=
  ⟨by decide, split_obj_identifier_eq_none_iff, split_obj_identifier_spec⟩

/-- Witness for C5 at `"blog.post.42"` (success) and `"nodots"`
(failure). -/
theorem identifier_codec_decode_witness :
    split_obj_identifier "blog.post.42" = some ("blog.post", "42") ∧
    split_obj_identifier "nodots" = none ∧
    "blog.post" ++ "." ++ "42" = "blog.post.42" ∧
    pyContainsChar "42" '.' = false :=
  ⟨identifier_codec_decode.1,
   (identifier_codec_decode.2.1 "nodots").mpr (by decide),
   (identifier_codec_decode.2.2 "blog.post.42" "blog.post" "42"
      (by decide)).2.2.2.1,
   (identifier_codec_decode.2.2 "blog.post.42" "blog.post" "42"
      (by decide)).2.2.2.2⟩

/-- **C6**: in the update pass, an entity type with at least one pending
(decodable) update identifier and a registered index receives exactly one
batched `backend.update` call, whose payload is the full list of
successfully resolved instances for that type, in pending order — never
one call per entity. -/
theorem update_pass_single_batch {ι ε : Type} (env : Env ι ε)
    (ids : List String) (p : String) (idx : ι)
    (hreg : env.getIndex p = some idx) (hpend : pksFor p ids ≠ []) :
    callsFor p (handle_updates env ids) =
      [Call.update idx p ((pksFor p ids).filterMap (env.getInstance p))] :=
  handle_updates_batch env ids p idx hreg hpend

/-- Witness for C6: two pending updates of type `"a"` (plus one of type
`"b"`) produce exactly one batched call for `"a"` with both resolved
instances. -/
theorem update_pass_single_batch_witness :
    callsFor "a"
      (handle_updates
        (Env.mk (fun q => if q = "a" then some 7 else none)
          (fun p k => some (p ++ "#" ++ k)) : Env Nat String)
        ["a.1", "a.2", "b.9"]) =
      [Call.update 7 "a" ["a#1", "a#2"]] :=
  (update_pass_single_batch
    (Env.mk (fun q => if q = "a" then some 7 else none)
      (fun p k => some (p ++ "#" ++ k)))
    ["a.1", "a.2", "b.9"] "a" 7 (by decide) (by decide)).trans (by decide)

/-- **C7**: in the delete pass, every identifier of the delete set whose
entity type has a registered index gets a `remove_object` call keyed by
the identifier string itself, and the whole pass is independent of the
repository lookup (`getInstance`), so deletion works even when the object
no longer exists in the primary store. -/
theorem delete_pass_remove_by_identifier {ι ε : Type} (env env' : Env ι ε)
    (ids : List String) (id p k : String) (idx : ι)
    (hmem : id ∈ ids) (hsplit : split_obj_identifier id = some (p, k))
    (hreg : env.getIndex p = some idx)
    (hsame : env'.getIndex = env.getIndex) :
    Call.remove idx p id ∈ handle_deletes env ids ∧
    handle_deletes env' ids = handle_deletes env ids := by
  refine ⟨handle_deletes_mem env ids id p k idx hmem hsplit hreg, ?_⟩
  cases env with
  | mk gi f =>
    cases env' with
    | mk gi' f' =>
      have hgi : gi' = gi := hsame
      subst hgi
      rfl

/-- Witness for C7: the identifier `"a.1"` of the registered type `"a"`
gets its removal call even though the repository resolves nothing
(`getInstance` constantly `none`), and changing `getInstance` does not
change the delete pass. -/
theorem delete_pass_remove_by_identifier_witness :
    Call.remove 3 "a" "a.1" ∈
      handle_deletes
        (Env.mk (fun q => if q = "a" then some 3 else none)
          (fun _ _ => (none : Option Unit)) : Env Nat Unit) ["a.1"] ∧
    handle_deletes
        (Env.mk (fun q => if q = "a" then some 3 else none)
          (fun _ _ => (some () : Option Unit)) : Env Nat Unit) ["a.1"] =
      handle_deletes
        (Env.mk (fun q => if q = "a" then some 3 else none)
          (fun _ _ => (none : Option Unit)) : Env Nat Unit) ["a.1"] :=
  delete_pass_remove_by_identifier
    (Env.mk (fun q => if q = "a" then some 3 else none) (fun _ _ => none))
    (Env.mk (fun q => if q = "a" then some 3 else none) (fun _ _ => some ()))
    ["a.1"] "a.1" "a" "1" 3 (by decide) (by decide) (by decide) rfl

/-- **C8** (counterexample): the claim says any message whose action part
is not `update`/`delete` is reported as a recoverable per-message error
leaving both sets unchanged.  For `"upsert:a:b"` (unrecognized action,
two colons) the code never reaches the action dispatch: the unpack of
`message.split(':')` raises instead of skipping. -/
theorem unrecognized_action_counterexample :
    process_message "upsert:a:b" Actions.init = .error () ∧
    (Except.error () : Except Unit Actions) ≠ .ok Actions.init :=
  ⟨rfl, fun h => Except.noConfusion h⟩

/-- **C8** (amended): a message with exactly one `':'` whose action part
is neither `update` nor `delete`, and a message with no `':'` at all, are
each reported as a recoverable per-message error (logged) and leave both
pending sets exactly unchanged. -/
theorem unrecognized_action_skip (msg a i : String) (st : Actions) :
    (pySplit msg ':' = [a, i] → a ≠ "update" → a ≠ "delete" →
      process_message msg st = .ok st) ∧
    (pyContainsChar msg ':' = false → process_message msg st = .ok st) := by
  constructor
  · intro hsp hu hd
    have hcol : ¬pyContainsChar msg ':' = false := by
      have h2 : 2 ≤ (pySplit msg ':').length := by rw [hsp]; simp
      have := (pyContainsChar_iff_two_le msg ':').mpr h2
      simp [this]
    rw [process_message, if_neg hcol, hsp]
    show Except.ok (applyAction a i st) = Except.ok st
    rw [applyAction, if_neg hu, if_neg hd]
  · intro hcol
    rw [process_message, if_pos hcol]

/-- Witness for C8 (amended) at `"upsert:blog.post.42"` (unrecognized
action, one colon) and `"nocolonhere"` (no colon), on a non-empty
state. -/
theorem unrecognized_action_skip_witness :
    process_message "upsert:blog.post.42" (Actions.mk ["x.1"] ["y.2"]) =
      .ok (Actions.mk ["x.1"] ["y.2"]) ∧
    process_message "nocolonhere" (Actions.mk ["x.1"] ["y.2"]) =
      .ok (Actions.mk ["x.1"] ["y.2"]) :=
  ⟨(unrecognized_action_skip "upsert:blog.post.42" "upsert" "blog.post.42"
      (Actions.mk ["x.1"] ["y.2"])).1 (by decide) (by decide) (by decide),
   (unrecognized_action_skip "nocolonhere" "" ""
      (Actions.mk ["x.1"] ["y.2"])).2 (by decide)⟩

/-- **C9**: during a flush, a type whose index resolution fails gets no
backend call at all (neither in the update nor in the delete pass), while
a sibling type with a registered index still receives its full batched
update call and all of its removal calls. -/
theorem unregistered_group_skipped {ι ε : Type} (env : Env ι ε)
    (upds dels : List String) (x y : String) (ix : ι)
    (hx : env.getIndex x = none) (hy : env.getIndex y = some ix) :
    callsFor x (handle_updates env upds) = [] ∧
    callsFor x (handle_deletes env dels) = [] ∧
    (pksFor y upds ≠ [] →
      callsFor y (handle_updates env upds) =
        [Call.update ix y ((pksFor y upds).filterMap (env.getInstance y))]) ∧
    (∀ id k, id ∈ dels → split_obj_identifier id = some (y, k) →
      Call.remove ix y id ∈ handle_deletes env dels) :=
  ⟨handle_updates_skip env upds x hx,
   handle_deletes_skip env dels x hx,
   fun hpend => handle_updates_batch env upds y ix hy hpend,
   fun id k hmem hsplit => handle_deletes_mem env dels id y k ix hmem hsplit hy⟩

/-- Witness for C9: type `"x"` is unregistered and silently skipped in
both passes while the registered sibling `"y"` still gets its batch
update and its removal. -/
theorem unregistered_group_skipped_witness :
    callsFor "x"
      (handle_updates
        (Env.mk (fun q => if q = "y" then some 5 else none)
          (fun p k => some (p ++ "#" ++ k)) : Env Nat String)
        ["x.1", "y.1", "y.2"]) = [] ∧
    callsFor "x"
      (handle_deletes
        (Env.mk (fun q => if q = "y" then some 5 else none)
          (fun p k => some (p ++ "#" ++ k)) : Env Nat String)
        ["x.2", "y.3"]) = [] ∧
    callsFor "y"
      (handle_updates
        (Env.mk (fun q => if q = "y" then some 5 else none)
          (fun p k => some (p ++ "#" ++ k)) : Env Nat String)
        ["x.1", "y.1", "y.2"]) = [Call.update 5 "y" ["y#1", "y#2"]] ∧
    Call.remove 5 "y" "y.3" ∈
      handle_deletes
        (Env.mk (fun q => if q = "y" then some 5 else none)
          (fun p k => some (p ++ "#" ++ k)) : Env Nat String)
        ["x.2", "y.3"] := by
  have h := unregistered_group_skipped
    (Env.mk (fun q => if q = "y" then some 5 else none)
      (fun p k => some (p ++ "#" ++ k)) : Env Nat String)
    ["x.1", "y.1", "y.2"] ["x.2", "y.3"] "x" "y" 5 (by decide) (by decide)
  exact ⟨h.1, h.2.1, (h.2.2.1 (by decide)).trans (by decide),
    h.2.2.2 "y.3" "3" (by decide) (by decide)⟩

/-- **C10**: `Command.__init__` creates the pending sets empty, and every
invocation of the management command constructs a fresh `Command`: the
result of an invocation after any list of earlier invocations is exactly
the result of running its queue against the freshly initialised state, so
no pending identifier persists between cycles. -/
theorem fresh_state_per_invocation {ι ε : Type} (env : Env ι ε)
    (prev : List (List String)) (q : List String) :
    Command.init.actions.update = [] ∧
    Command.init.actions.delete = [] ∧
    runInvocation env q = handle_noargs env Command.init q ∧
    runInvocations env (prev ++ [q]) =
      runInvocations env prev ++ [runInvocation env q] := by
  refine ⟨rfl, rfl, rfl, ?_⟩
  rw [runInvocations, runInvocations, List.map_append]
  rfl
